import Mathlib

/-!
Verification of the `serde_yml` format adapter (`src/serde_yml.rs`) of the
deserr deserialization core.

The adapter code is embedded shallowly: Rust `panic!()` sites are modelled by
`Option` (a `none` result means the computation aborts), fallible conversion
returns `Except`.  The deserr core types (`Value`, `ValueKind`,
`ValuePointerRef`, the error-merge protocol) are not part of the adapter file
and are modelled from the specification; the external `serde_yml` crate's
`Number` type is modelled from that crate's documented semantics
(`PosInt`/`NegInt`/`Float` with `as_u64`/`as_i64`/`as_f64` accessors, where a
`NegInt` is only constructed for strictly negative values).
-/

namespace Deserr

/-- The Rust `String` type of text payloads and keys. -/
abbrev Str : Type := String

/-- IEEE-754 binary64 payloads, modelled freely: the adapter never computes
with floats, it only stores and moves them, so a double is represented by its
bit pattern (`lit`), plus free constructors for the two integer-to-double
casts that `serde_yml`'s `Number::as_f64` can perform.  No rounding or float
arithmetic is modelled because the adapter performs none. -/
inductive F64 where
  | lit (bits : Nat)
  | of_u64 (n : Nat)
  | of_i64 (i : Int)
deriving DecidableEq

/-- `i64::MAX` as a natural number. -/
def i64_max : Nat := 2 ^ 63 - 1

/-- `u64::MAX` as a natural number. -/
def u64_max : Nat := 2 ^ 64 - 1

/-- `i64::MIN` as an integer. -/
def i64_min : Int := -(2 ^ 63)

/-- The external `serde_yml::Number`: a tagged union
`N::PosInt(u64) | N::NegInt(i64) | N::Float(f64)`.  The crate's constructors
only ever build `negInt i` with `i < 0` and `posInt n` with `n ≤ u64::MAX`;
that invariant is stated separately as `Number.wf`. -/
inductive Number where
  | posInt (n : Nat)
  | negInt (i : Int)
  | float (f : F64)
deriving DecidableEq

namespace Number

/-- `serde_yml::Number::as_u64`: `Some` exactly on the `PosInt` variant. -/
def as_u64 : Number → Option Nat
  | .posInt n => some n
  | .negInt _ => none
  | .float _ => none

/-- `serde_yml::Number::as_i64`: `Some` on `NegInt`, and on `PosInt` when the
payload fits in `i64`. -/
def as_i64 : Number → Option Int
  | .posInt n => if n ≤ i64_max then some (n : Int) else none
  | .negInt i => some i
  | .float _ => none

/-- `serde_yml::Number::as_f64`: defined on every variant (integer variants
are cast to double). -/
def as_f64 : Number → Option F64
  | .posInt n => some (.of_u64 n)
  | .negInt i => some (.of_i64 i)
  | .float f => some f

/-- `serde_yml::Number::is_u64`. -/
def is_u64 : Number → Bool
  | .posInt _ => true
  | .negInt _ => false
  | .float _ => false

/-- `serde_yml::Number::is_i64`. -/
def is_i64 : Number → Bool
  | .posInt n => n ≤ i64_max
  | .negInt _ => true
  | .float _ => false

/-- `serde_yml::Number::is_f64`: true exactly on the `Float` variant. -/
def is_f64 : Number → Bool
  | .posInt _ => false
  | .negInt _ => false
  | .float _ => true

/-- `impl From<u64> for serde_yml::Number`. -/
def from_u64 (n : Nat) : Number := .posInt n

/-- `impl From<i64> for serde_yml::Number`: a non-negative argument is
normalised to the `PosInt` variant. -/
def from_i64 (i : Int) : Number := if i < 0 then .negInt i else .posInt i.toNat

/-- `impl From<f64> for serde_yml::Number`: stores the double unchanged. -/
def from_f64 (f : F64) : Number := .float f

/-- The representation invariant `serde_yml` maintains for `Number`:
`NegInt` holds only strictly negative `i64` values and `PosInt` only `u64`
values. -/
def wf : Number → Bool
  | .posInt n => n ≤ u64_max
  | .negInt i => i64_min ≤ i ∧ i < 0
  | .float _ => true

end Number

/-- Modelled from the spec: the deserr canonical `ValueKind` — the variant
tag of a canonical value. -/
inductive ValueKind where
  | Null
  | Boolean
  | Integer
  | NegativeInteger
  | Float
  | String
  | Sequence
  | Map
deriving DecidableEq

/-- `serde_yml::Value` (named `YValue` in the adapter source): the native
YAML value tree.  A `Mapping` is an ordered list of key/value pairs (the
crate's insertion-ordered map) and a `Tagged` node wraps an inner value with
a tag. -/
inductive YValue where
  | Null
  | Bool (b : Bool)
  | Number (n : Deserr.Number)
  | String (s : Str)
  | Sequence (xs : List YValue)
  | Mapping (m : List (YValue × YValue))
  | Tagged (tag : Str) (value : YValue)

/-- Modelled from the spec: the deserr canonical `Value`, instantiated at the
YAML adapter (`V = YValue`, `V::Sequence = Vec<YValue>`, `V::Map = Mapping`):
`Sequence` and `Map` hold still-native children. -/
inductive Value where
  | Null
  | Boolean (b : Bool)
  | Integer (n : Nat)
  | NegativeInteger (i : Int)
  | Float (f : F64)
  | String (s : Str)
  | Sequence (s : List YValue)
  | Map (m : List (YValue × YValue))

mutual

/-- Size of a native YAML value, used as the termination measure for the
recursive conversion functions. -/
def ysize : YValue → Nat
  | .Null => 1
  | .Bool _ => 1
  | .Number _ => 1
  | .String _ => 1
  | .Sequence xs => 2 + ylist xs
  | .Mapping m => 2 + ypairs m
  | .Tagged _ v => 1 + ysize v

/-- Size of a list of native values. -/
def ylist : List YValue → Nat
  | [] => 0
  | x :: xs => 1 + ysize x + ylist xs

/-- Size of a native key/value pair list. -/
def ypairs : List (YValue × YValue) → Nat
  | [] => 0
  | (_, v) :: m => 1 + ysize v + ypairs m

end

/-- Size of a canonical value (strictly below the size of any native value
that converts to it). -/
def vsize : Value → Nat
  | .Null => 0
  | .Boolean _ => 0
  | .Integer _ => 0
  | .NegativeInteger _ => 0
  | .Float _ => 0
  | .String _ => 0
  | .Sequence xs => 1 + ylist xs
  | .Map m => 1 + ypairs m

/-- The `YValue::Number` arm of `IntoValue::into_value`
(src/serde_yml.rs lines 52-62): try `as_u64`, then `as_i64`, then `as_f64`;
`none` models the final `panic!()`. -/
def Number.number_into_value (n : Number) : Option Value :=
  match n.as_u64 with
  | some u => some (.Integer u)
  | none =>
    match n.as_i64 with
    | some i => some (.NegativeInteger i)
    | none =>
      match n.as_f64 with
      | some f => some (.Float f)
      | none => none

/-- `IntoValue::into_value for YValue` (src/serde_yml.rs lines 48-69):
one-level conversion of a native node to a canonical node; children of
sequences and mappings stay native; a `Tagged` wrapper delegates to its inner
value; `none` models the `panic!()` on an unclassifiable number. -/
def YValue.into_value : YValue → Option Value
  | .Null => some .Null
  | .Bool b => some (.Boolean b)
  | .Number n => n.number_into_value
  | .String x => some (.String x)
  | .Sequence x => some (.Sequence x)
  | .Mapping x => some (.Map x)
  | .Tagged _ x => x.into_value

/-- The `YValue::Number` arm of `IntoValue::kind`
(src/serde_yml.rs lines 75-85). -/
def Number.number_kind (n : Number) : Option ValueKind :=
  if n.is_u64 then some .Integer
  else if n.is_i64 then some .NegativeInteger
  else if n.is_f64 then some .Float
  else none

/-- `IntoValue::kind for YValue` (src/serde_yml.rs lines 71-92):
non-consuming classification; a `Tagged` wrapper delegates to its inner
value; `none` models the `panic!()` on an unclassifiable number. -/
def YValue.kind : YValue → Option ValueKind
  | .Null => some .Null
  | .Bool _ => some .Boolean
  | .Number n => n.number_kind
  | .String _ => some .String
  | .Sequence _ => some .Sequence
  | .Mapping _ => some .Map
  | .Tagged _ x => x.kind

/-- The variant tag of a canonical value. -/
def Value.tag : Value → ValueKind
  | .Null => .Null
  | .Boolean _ => .Boolean
  | .Integer _ => .Integer
  | .NegativeInteger _ => .NegativeInteger
  | .Float _ => .Float
  | .String _ => .String
  | .Sequence _ => .Sequence
  | .Map _ => .Map

/-- `number_into_value` only produces scalar canonical values. -/
theorem Number.number_into_value_vsize (n : Number) (d : Value)
    (h : n.number_into_value = some d) : vsize d = 0 := by
  unfold number_into_value at h
  cases n with
  | posInt m => simp [as_u64] at h; subst h; rfl
  | negInt i => simp [as_u64, as_i64] at h; subst h; rfl
  | float f => simp [as_u64, as_i64, as_f64] at h; subst h; rfl

/-- One-level conversion strictly decreases the size measure. -/
theorem YValue.into_value_vsize :
    ∀ (v : YValue) (d : Value), v.into_value = some d → vsize d < ysize v
  | .Null, d, h => by simp [into_value] at h; subst h; simp [vsize, ysize]
  | .Bool b, d, h => by simp [into_value] at h; subst h; simp [vsize, ysize]
  | .Number n, d, h => by
    simp [into_value] at h
    have := Number.number_into_value_vsize n d h
    simp [this, ysize]
  | .String s, d, h => by simp [into_value] at h; subst h; simp [vsize, ysize]
  | .Sequence xs, d, h => by
    simp [into_value] at h; subst h; simp [vsize, ysize]
  | .Mapping m, d, h => by
    simp [into_value] at h; subst h; simp [vsize, ysize]
  | .Tagged t v, d, h => by
    simp [into_value] at h
    have := into_value_vsize v d h
    simp [ysize]; omega

/-- Modelled from the spec: the deserr `ValuePointerRef` — a backward-linked
path of keys and indices. -/
inductive ValuePointerRef where
  | origin
  | key (k : Str) (prev : ValuePointerRef)
  | index (i : Nat) (prev : ValuePointerRef)
deriving DecidableEq

/-- Modelled from the spec: `ValuePointerRef::push_key`. -/
def ValuePointerRef.push_key (p : ValuePointerRef) (k : Str) : ValuePointerRef :=
  .key k p

/-- Modelled from the spec: `ValuePointerRef::push_index`. -/
def ValuePointerRef.push_index (p : ValuePointerRef) (i : Nat) : ValuePointerRef :=
  .index i p

/-- Rust `std::ops::ControlFlow<E, E>`, the return type of the error-merge
protocol. -/
inductive ControlFlow (E : Type) where
  | Continue (e : E)
  | Break (e : E)

/-- Modelled from the spec: the type of `DeserializeError::merge`
(`merge(accumulated, new_error, location) -> Continue | Break`). -/
def MergeFn (E : Type) : Type :=
  Option E → E → ValuePointerRef → ControlFlow E

mutual

/-- `impl Deserr<E> for YValue, fn deserialize_from_value`
(src/serde_yml.rs lines 96-157), with the error type's `merge` passed
explicitly.  The result layers Rust's two failure channels:
`none` models a panic (non-text map key, unclassifiable number),
`some (.error e)` a returned `Err(e)`, `some (.ok y)` a returned `Ok(y)`. -/
def deserialize_from_value {E : Type} (merge : MergeFn E) :
    Value → ValuePointerRef → Option (Except E YValue)
  | .Null, _ => some (.ok .Null)
  | .Boolean b, _ => some (.ok (.Bool b))
  | .Integer x, _ => some (.ok (.Number (Number.from_u64 x)))
  | .NegativeInteger x, _ => some (.ok (.Number (Number.from_i64 x)))
  | .Float f, _ => some (.ok (.Number (Number.from_f64 f)))
  | .String s, _ => some (.ok (.String s))
  | .Sequence seq, location => des_seq merge location seq 0 [] none
  | .Map map, location => des_map merge location map [] none
termination_by d l => vsize d
decreasing_by
all_goals simp_wf
all_goals simp [vsize]

/-- The element conversion
`let result = Self::deserialize_from_value(value.into_value(), loc)`
shared by both container loops: expose the native element as a canonical
node (propagating its panic) and recurse. -/
def des_elem {E : Type} (merge : MergeFn E) (value : YValue)
    (loc : ValuePointerRef) : Option (Except E YValue) :=
  match h : value.into_value with
  | none => none
  | some d => deserialize_from_value merge d loc
termination_by ysize value
decreasing_by
all_goals simp_wf
all_goals (have hlt := YValue.into_value_vsize value d h; omega)

/-- The `for (index, value) in seq.into_iter().enumerate()` loop of the
`Value::Sequence` arm (src/serde_yml.rs lines 108-131), with explicit loop
state: the upcoming index `i`, the output vector `yseq` built so far and the
accumulated error.  After the last element the accumulated error, if any, is
returned, else the built sequence. -/
def des_seq {E : Type} (merge : MergeFn E) (location : ValuePointerRef) :
    List YValue → Nat → List YValue → Option E → Option (Except E YValue)
  | [], _, yseq, err =>
    some (match err with
          | some e => .error e
          | none => .ok (.Sequence yseq))
  | value :: rest, i, yseq, err =>
    match des_elem merge value (location.push_index i) with
    | none => none
    | some (.ok v) => des_seq merge location rest (i + 1) (yseq ++ [v]) err
    | some (.error e) =>
      match merge err e (location.push_index i) with
      | .Continue e2 => des_seq merge location rest (i + 1) yseq (some e2)
      | .Break e2 => some (.error e2)
termination_by xs i yseq err => ylist xs
decreasing_by
all_goals simp_wf
all_goals simp [ylist]
all_goals omega

/-- The `for (key, value) in map.into_iter()` loop of the `Value::Map` arm
(src/serde_yml.rs lines 133-154).  Iteration goes through `YMapIter`
(lines 16-24), which panics on a non-text key (`none` here) before the value
is processed; a converted entry is inserted into the output mapping under
`YValue::String(key)`. -/
def des_map {E : Type} (merge : MergeFn E) (location : ValuePointerRef) :
    List (YValue × YValue) → List (YValue × YValue) → Option E →
    Option (Except E YValue)
  | [], jmap, err =>
    some (match err with
          | some e => .error e
          | none => .ok (.Mapping jmap))
  | (k, value) :: rest, jmap, err =>
    match k with
    | .String key =>
      (match des_elem merge value (location.push_key key) with
      | none => none
      | some (.ok v) =>
        des_map merge location rest (jmap ++ [(YValue.String key, v)]) err
      | some (.error e) =>
        match merge err e (location.push_key key) with
        | .Continue e2 => des_map merge location rest jmap (some e2)
        | .Break e2 => some (.error e2))
    | _ => none
termination_by m jmap err => ypairs m
decreasing_by
all_goals simp_wf
all_goals simp [ypairs]
all_goals omega

end

/-- `des_elem` is exposure-then-recursion as an `Option`-bind. -/
theorem des_elem_eq {E : Type} (merge : MergeFn E) (value : YValue)
    (loc : ValuePointerRef) :
    des_elem merge value loc =
      value.into_value.bind fun d => deserialize_from_value merge d loc := by
  rw [des_elem.eq_def]
  split
  · rename_i h; rw [h]; rfl
  · rename_i d h; rw [h]; rfl

mutual

/-- `impl<V: IntoValue> From<Value<V>> for YValue` (src/serde_yml.rs lines
160-182), instantiated at `V = YValue`: the infallible reverse conversion
from a canonical value to a native one; `none` models a panic reached
through `into_value` or through the map iterator's non-text-key abort. -/
def from_value : Value → Option YValue
  | .Null => some .Null
  | .Boolean b => some (.Bool b)
  | .Integer n => some (.Number (Number.from_u64 n))
  | .NegativeInteger i => some (.Number (Number.from_i64 i))
  | .Float f => some (.Number (Number.from_f64 f))
  | .String s => some (.String s)
  | .Sequence s => (from_value_list s).map .Sequence
  | .Map m => (from_value_pairs m).map .Mapping
termination_by d => vsize d
decreasing_by
all_goals simp_wf
all_goals simp [vsize]

/-- One element of the `Value::Sequence` pipeline
`.map(IntoValue::into_value).map(YValue::from)`: expose the native element
as a canonical node (propagating its panic), then convert it back. -/
def from_elem (x : YValue) : Option YValue :=
  match h : x.into_value with
  | none => none
  | some d => from_value d
termination_by ysize x
decreasing_by
all_goals simp_wf
all_goals (have hlt := YValue.into_value_vsize x d h; omega)

/-- The `s.into_iter().map(IntoValue::into_value).map(YValue::from).collect()`
pipeline of the `Value::Sequence` arm: elements are converted left to right;
a panic in any element aborts the whole conversion. -/
def from_value_list : List YValue → Option (List YValue)
  | [] => some []
  | x :: xs =>
    match from_elem x with
    | none => none
    | some y => (from_value_list xs).map (y :: ·)
termination_by xs => ylist xs
decreasing_by
all_goals simp_wf
all_goals simp [ylist]
all_goals omega

/-- The `YMap::from_iter(m.into_iter().map(...))` pipeline of the
`Value::Map` arm: iteration goes through `YMapIter`, which panics on a
non-text key before the entry's value is converted. -/
def from_value_pairs : List (YValue × YValue) → Option (List (YValue × YValue))
  | [] => some []
  | (k, v) :: rest =>
    match k with
    | .String key =>
      (match from_elem v with
      | none => none
      | some y => (from_value_pairs rest).map ((YValue.String key, y) :: ·))
    | _ => none
termination_by m => ypairs m
decreasing_by
all_goals simp_wf
all_goals simp [ypairs]
all_goals omega

end

/-- `from_elem` is exposure-then-reverse-conversion as an `Option`-bind. -/
theorem from_elem_eq (x : YValue) :
    from_elem x = x.into_value.bind from_value := by
  rw [from_elem.eq_def]
  split
  · rename_i h; rw [h]; rfl
  · rename_i d h; rw [h]; rfl

/-- The sequence-traversal loop of the `Value::Sequence` arm with the element
conversion abstracted: `conv i x` stands for
`T::deserialize_from_value(x.into_value(), location.push_index(i))` for the
element type `T`.  `des_seq` is exactly this loop with `conv` instantiated at
the recursive call (`des_seq_eq_seq_loop`). -/
def seq_loop {E : Type} (conv : Nat → YValue → Option (Except E YValue))
    (merge : MergeFn E) (location : ValuePointerRef) :
    List YValue → Nat → List YValue → Option E → Option (Except E YValue)
  | [], _, yseq, err =>
    some (match err with
          | some e => .error e
          | none => .ok (.Sequence yseq))
  | value :: rest, i, yseq, err =>
    match conv i value with
    | none => none
    | some (.ok v) => seq_loop conv merge location rest (i + 1) (yseq ++ [v]) err
    | some (.error e) =>
      match merge err e (location.push_index i) with
      | .Continue e2 => seq_loop conv merge location rest (i + 1) yseq (some e2)
      | .Break e2 => some (.error e2)

/-- The map-traversal loop of the `Value::Map` arm with the entry conversion
abstracted: `conv key x` stands for
`T::deserialize_from_value(x.into_value(), location.push_key(key))`.
Iteration goes through `YMapIter`, which panics on a non-text key (`none`)
before the entry is converted.  `des_map` is exactly this loop with `conv`
instantiated at the recursive call (`des_map_eq_map_loop`). -/
def map_loop {E : Type} (conv : Str → YValue → Option (Except E YValue))
    (merge : MergeFn E) (location : ValuePointerRef) :
    List (YValue × YValue) → List (YValue × YValue) → Option E →
    Option (Except E YValue)
  | [], jmap, err =>
    some (match err with
          | some e => .error e
          | none => .ok (.Mapping jmap))
  | (k, value) :: rest, jmap, err =>
    match k with
    | .String key =>
      (match conv key value with
      | none => none
      | some (.ok v) =>
        map_loop conv merge location rest (jmap ++ [(YValue.String key, v)]) err
      | some (.error e) =>
        match merge err e (location.push_key key) with
        | .Continue e2 => map_loop conv merge location rest jmap (some e2)
        | .Break e2 => some (.error e2))
    | _ => none

/-- The sequence arm of `deserialize_from_value` is the generic sequence loop
instantiated with the recursive conversion of each element. -/
theorem des_seq_eq_seq_loop {E : Type} (merge : MergeFn E)
    (location : ValuePointerRef) :
    ∀ (xs : List YValue) (i : Nat) (yseq : List YValue) (err : Option E),
      des_seq merge location xs i yseq err =
        seq_loop
          (fun j x => des_elem merge x (location.push_index j))
          merge location xs i yseq err := by
  intro xs
  induction xs with
  | nil => intro i yseq err; rw [des_seq.eq_def, seq_loop.eq_def]
  | cons x rest ih =>
    intro i yseq err
    rw [des_seq.eq_def, seq_loop.eq_def]
    simp only
    cases hr : des_elem merge x (location.push_index i) with
    | none => simp [hr]
    | some r =>
      cases r with
      | ok v => simp only [hr]; exact ih (i + 1) (yseq ++ [v]) err
      | error e =>
        simp only [hr]
        cases hm : merge err e (location.push_index i) with
        | Continue e2 => simp only [hm]; exact ih (i + 1) yseq (some e2)
        | Break e2 => simp [hm]

/-- The map arm of `deserialize_from_value` is the generic map loop
instantiated with the recursive conversion of each entry value. -/
theorem des_map_eq_map_loop {E : Type} (merge : MergeFn E)
    (location : ValuePointerRef) :
    ∀ (m : List (YValue × YValue)) (jmap : List (YValue × YValue))
      (err : Option E),
      des_map merge location m jmap err =
        map_loop
          (fun key x => des_elem merge x (location.push_key key))
          merge location m jmap err := by
  intro m
  induction m with
  | nil => intro jmap err; rw [des_map.eq_def, map_loop.eq_def]
  | cons p rest ih =>
    intro jmap err
    obtain ⟨k, value⟩ := p
    rw [des_map.eq_def, map_loop.eq_def]
    simp only
    cases k with
    | String key =>
      cases hr : des_elem merge value (location.push_key key) with
      | none => simp [hr]
      | some r =>
        cases r with
        | ok v => simp only [hr]; exact ih (jmap ++ [(YValue.String key, v)]) err
        | error e =>
          simp only [hr]
          cases hm : merge err e (location.push_key key) with
          | Continue e2 => simp only [hm]; exact ih jmap (some e2)
          | Break e2 => simp [hm]
    | Null => rfl
    | Bool b => rfl
    | Number n => rfl
    | Sequence xs => rfl
    | Mapping mm => rfl
    | Tagged t v => rfl

mutual

/-- Every mapping key occurring anywhere in this native value is text
(the adapter contract of §3; `YMapIter` aborts on any other key). -/
def YValue.keys_text : YValue → Bool
  | .Null => true
  | .Bool _ => true
  | .Number _ => true
  | .String _ => true
  | .Sequence xs => keys_text_list xs
  | .Mapping m => keys_text_pairs m
  | .Tagged _ v => v.keys_text

/-- `keys_text` over a list of native values. -/
def keys_text_list : List YValue → Bool
  | [] => true
  | x :: xs => x.keys_text && keys_text_list xs

/-- `keys_text` over native key/value pairs: each key is text and each value
recursively satisfies `keys_text`. -/
def keys_text_pairs : List (YValue × YValue) → Bool
  | [] => true
  | (k, v) :: rest =>
    (match k with
     | .String _ => true
     | _ => false) && v.keys_text && keys_text_pairs rest

end

/-- `keys_text` for a canonical value: its still-native children satisfy
`keys_text`. -/
def Value.keys_text : Value → Bool
  | .Sequence xs => keys_text_list xs
  | .Map m => keys_text_pairs m
  | _ => true

mutual

/-- The adapter invariants of §3 for a native value: every number satisfies
the `serde_yml` representation invariant and every mapping key is text. -/
def YValue.wf : YValue → Bool
  | .Null => true
  | .Bool _ => true
  | .Number n => n.wf
  | .String _ => true
  | .Sequence xs => wf_list xs
  | .Mapping m => wf_pairs m
  | .Tagged _ v => v.wf

/-- `YValue.wf` over a list of native values. -/
def wf_list : List YValue → Bool
  | [] => true
  | x :: xs => x.wf && wf_list xs

/-- `YValue.wf` over native key/value pairs. -/
def wf_pairs : List (YValue × YValue) → Bool
  | [] => true
  | (k, v) :: rest =>
    (match k with
     | .String _ => true
     | _ => false) && v.wf && wf_pairs rest

end

mutual

/-- Round-trip scope of §8: numbers, strings and nested sequences/maps with
well-formed numbers and text keys; `Tagged` wrapper nodes are outside the
scope (they are deliberately erased by `into_value`). -/
def YValue.rt_ok : YValue → Bool
  | .Null => true
  | .Bool _ => true
  | .Number n => n.wf
  | .String _ => true
  | .Sequence xs => rt_ok_list xs
  | .Mapping m => rt_ok_pairs m
  | .Tagged _ _ => false

/-- `YValue.rt_ok` over a list of native values. -/
def rt_ok_list : List YValue → Bool
  | [] => true
  | x :: xs => x.rt_ok && rt_ok_list xs

/-- `YValue.rt_ok` over native key/value pairs. -/
def rt_ok_pairs : List (YValue × YValue) → Bool
  | [] => true
  | (k, v) :: rest =>
    (match k with
     | .String _ => true
     | _ => false) && v.rt_ok && rt_ok_pairs rest

end

/-- The number classification of `into_value` is total: `as_f64` answers on
every variant, so the `panic!()` branch of the `Number` arm is unreachable. -/
theorem Number.number_into_value_total (n : Number) :
    ∃ d, n.number_into_value = some d := by
  cases n with
  | posInt m => exact ⟨_, rfl⟩
  | negInt i => exact ⟨_, rfl⟩
  | float f => exact ⟨_, rfl⟩

/-- `into_value` never panics: every native value exposes a canonical node. -/
theorem YValue.into_value_total :
    ∀ v : YValue, ∃ d, v.into_value = some d
  | .Null => ⟨_, rfl⟩
  | .Bool _ => ⟨_, rfl⟩
  | .Number n => n.number_into_value_total
  | .String _ => ⟨_, rfl⟩
  | .Sequence _ => ⟨_, rfl⟩
  | .Mapping _ => ⟨_, rfl⟩
  | .Tagged _ v => into_value_total v

/-- The number classification of `kind` is total: each variant satisfies one
of `is_u64`/`is_i64`/`is_f64`, so the `panic!()` branch is unreachable. -/
theorem Number.number_kind_total (n : Number) :
    ∃ k, n.number_kind = some k := by
  cases n with
  | posInt m => exact ⟨_, rfl⟩
  | negInt i => exact ⟨_, rfl⟩
  | float f => exact ⟨_, rfl⟩

/-- `kind` never panics. -/
theorem YValue.kind_total :
    ∀ v : YValue, ∃ k, v.kind = some k
  | .Null => ⟨_, rfl⟩
  | .Bool _ => ⟨_, rfl⟩
  | .Number n => n.number_kind_total
  | .String _ => ⟨_, rfl⟩
  | .Sequence _ => ⟨_, rfl⟩
  | .Mapping _ => ⟨_, rfl⟩
  | .Tagged _ v => kind_total v

/-- On numbers, `kind` computes exactly the variant tag `into_value`
chooses: both run the `u64 → i64 → f64` precedence. -/
theorem Number.number_kind_agree (n : Number) :
    n.number_kind = n.number_into_value.map Value.tag := by
  cases n with
  | posInt m => rfl
  | negInt i => rfl
  | float f => rfl

/-- `kind` computes exactly the variant tag of `into_value`, on every native
value. -/
theorem YValue.kind_agree :
    ∀ v : YValue, v.kind = v.into_value.map Value.tag
  | .Null => rfl
  | .Bool _ => rfl
  | .Number n => n.number_kind_agree
  | .String _ => rfl
  | .Sequence _ => rfl
  | .Mapping _ => rfl
  | .Tagged _ v => kind_agree v

/-- `into_value` preserves the text-key invariant: the canonical node of a
key-text native value has key-text children. -/
theorem YValue.into_value_keys_text :
    ∀ (v : YValue) (d : Value), v.into_value = some d →
      v.keys_text = true → d.keys_text = true
  | .Null, d, h, _ => by simp [into_value] at h; subst h; rfl
  | .Bool b, d, h, _ => by simp [into_value] at h; subst h; rfl
  | .Number n, d, h, _ => by
    rcases n with m | i | f
    · simp [into_value, Number.number_into_value, Number.as_u64] at h
      subst h; rfl
    · simp [into_value, Number.number_into_value, Number.as_u64,
        Number.as_i64] at h
      subst h; rfl
    · simp [into_value, Number.number_into_value, Number.as_u64,
        Number.as_i64, Number.as_f64] at h
      subst h; rfl
  | .String s, d, h, _ => by simp [into_value] at h; subst h; rfl
  | .Sequence xs, d, h, hk => by
    simp [into_value] at h; subst h
    simpa [keys_text, Value.keys_text] using hk
  | .Mapping m, d, h, hk => by
    simp [into_value] at h; subst h
    simpa [keys_text, Value.keys_text] using hk
  | .Tagged t v, d, h, hk => by
    simp [into_value] at h
    exact into_value_keys_text v d h (by simpa [keys_text] using hk)

/-- Every native value has positive size. -/
theorem ysize_pos : ∀ v : YValue, 1 ≤ ysize v := by
  intro v; cases v <;> simp [ysize] <;> omega

/-- Size-bounded workhorse behind refinement: at every size, converting a
canonical value with `deserialize_from_value` (under any merge policy, at any
location) agrees with the infallible `from_value`, with every returned value
wrapped in `Ok`; the container loops agree with the `from_value` pipelines
modulo the already-built prefix. -/
theorem des_eq_from_aux : ∀ N : Nat,
    (∀ (E : Type) (merge : MergeFn E) (d : Value) (loc : ValuePointerRef),
      vsize d ≤ N →
        deserialize_from_value merge d loc = (from_value d).map Except.ok) ∧
    (∀ (E : Type) (merge : MergeFn E) (loc : ValuePointerRef)
      (xs : List YValue) (i : Nat) (yseq : List YValue),
      ylist xs ≤ N →
        des_seq merge loc xs i yseq none =
          (from_value_list xs).map
            fun ys => Except.ok (YValue.Sequence (yseq ++ ys))) ∧
    (∀ (E : Type) (merge : MergeFn E) (loc : ValuePointerRef)
      (m : List (YValue × YValue)) (jmap : List (YValue × YValue)),
      ypairs m ≤ N →
        des_map merge loc m jmap none =
          (from_value_pairs m).map
            fun ps => Except.ok (YValue.Mapping (jmap ++ ps))) := by
  intro N
  induction N using Nat.strong_induction_on with
  | _ N ih =>
  refine ⟨?_, ?_, ?_⟩
  · intro E merge d loc hN
    cases d with
    | Null => rw [deserialize_from_value.eq_def, from_value.eq_def]; rfl
    | Boolean b => rw [deserialize_from_value.eq_def, from_value.eq_def]; rfl
    | Integer x => rw [deserialize_from_value.eq_def, from_value.eq_def]; rfl
    | NegativeInteger x => rw [deserialize_from_value.eq_def, from_value.eq_def]; rfl
    | Float f => rw [deserialize_from_value.eq_def, from_value.eq_def]; rfl
    | String s => rw [deserialize_from_value.eq_def, from_value.eq_def]; rfl
    | Sequence xs =>
      have hlt : ylist xs < N := by
        simp [vsize] at hN; omega
      have h2 := (ih (ylist xs) hlt).2.1 E merge loc xs 0 [] le_rfl
      rw [deserialize_from_value.eq_def, from_value.eq_def]
      dsimp only
      rw [h2]
      cases from_value_list xs <;> simp
    | Map m =>
      have hlt : ypairs m < N := by
        simp [vsize] at hN; omega
      have h3 := (ih (ypairs m) hlt).2.2 E merge loc m [] le_rfl
      rw [deserialize_from_value.eq_def, from_value.eq_def]
      dsimp only
      rw [h3]
      cases from_value_pairs m <;> simp
  · intro E merge loc xs i yseq hN
    cases xs with
    | nil =>
      rw [des_seq.eq_def, from_value_list.eq_def]
      simp
    | cons x rest =>
      have hx1 := ysize_pos x
      have hxN : ysize x ≤ N - 1 := by simp [ylist] at hN; omega
      have hrest : ylist rest < N := by simp [ylist] at hN; omega
      rw [des_seq.eq_def, from_value_list.eq_def]
      dsimp only
      rw [des_elem_eq, from_elem_eq]
      cases hxv : x.into_value with
      | none => simp
      | some dx =>
        have hdx : vsize dx < ysize x := YValue.into_value_vsize x dx hxv
        have h1 := (ih (vsize dx) (by omega)).1 E merge dx (loc.push_index i)
          le_rfl
        rw [Option.some_bind']
        rw [h1]
        cases hfv : from_value dx with
        | none => simp [hfv]
        | some y =>
          rw [Option.map_some']
          dsimp only
          have h2 := (ih (ylist rest) hrest).2.1 E merge loc rest (i + 1)
            (yseq ++ [y]) le_rfl
          rw [h2]
          cases from_value_list rest <;> simp [hfv]
  · intro E merge loc m jmap hN
    cases m with
    | nil =>
      rw [des_map.eq_def, from_value_pairs.eq_def]
      simp
    | cons p rest =>
      obtain ⟨k, v⟩ := p
      have hv1 := ysize_pos v
      have hvN : ysize v ≤ N - 1 := by simp [ypairs] at hN; omega
      have hrest : ypairs rest < N := by simp [ypairs] at hN; omega
      rw [des_map.eq_def, from_value_pairs.eq_def]
      cases k with
      | String key =>
        dsimp only
        rw [des_elem_eq, from_elem_eq]
        cases hxv : v.into_value with
        | none => simp
        | some dv =>
          have hdv : vsize dv < ysize v := YValue.into_value_vsize v dv hxv
          have h1 := (ih (vsize dv) (by omega)).1 E merge dv
            (loc.push_key key) le_rfl
          rw [Option.some_bind']
          rw [h1]
          cases hfv : from_value dv with
          | none => simp [hfv]
          | some y =>
            rw [Option.map_some']
            dsimp only
            have h3 := (ih (ypairs rest) hrest).2.2 E merge loc rest
              (jmap ++ [(YValue.String key, y)]) le_rfl
            rw [h3]
            cases from_value_pairs rest <;> simp [hfv]
      | Null => rfl
      | Bool b => rfl
      | Number n => rfl
      | Sequence xs => rfl
      | Mapping mm => rfl
      | Tagged t w => rfl

/-- Size-bounded totality of the reverse conversion: on canonical values all
of whose mapping keys are text, `from_value` (and its pipelines) never
panics. -/
theorem from_value_total_aux : ∀ N : Nat,
    (∀ d : Value, vsize d ≤ N → d.keys_text = true →
      ∃ y, from_value d = some y) ∧
    (∀ xs : List YValue, ylist xs ≤ N → keys_text_list xs = true →
      ∃ ys, from_value_list xs = some ys) ∧
    (∀ m : List (YValue × YValue), ypairs m ≤ N → keys_text_pairs m = true →
      ∃ ps, from_value_pairs m = some ps) := by
  intro N
  induction N using Nat.strong_induction_on with
  | _ N ih =>
  refine ⟨?_, ?_, ?_⟩
  · intro d hN hk
    cases d with
    | Null => exact ⟨_, by rw [from_value.eq_def]⟩
    | Boolean b => exact ⟨_, by rw [from_value.eq_def]⟩
    | Integer x => exact ⟨_, by rw [from_value.eq_def]⟩
    | NegativeInteger x => exact ⟨_, by rw [from_value.eq_def]⟩
    | Float f => exact ⟨_, by rw [from_value.eq_def]⟩
    | String s => exact ⟨_, by rw [from_value.eq_def]⟩
    | Sequence xs =>
      have hlt : ylist xs < N := by simp [vsize] at hN; omega
      obtain ⟨ys, hys⟩ := (ih (ylist xs) hlt).2.1 xs le_rfl
        (by simpa [Value.keys_text] using hk)
      rw [from_value.eq_def]
      dsimp only
      rw [hys]
      exact ⟨_, rfl⟩
    | Map m =>
      have hlt : ypairs m < N := by simp [vsize] at hN; omega
      obtain ⟨ps, hps⟩ := (ih (ypairs m) hlt).2.2 m le_rfl
        (by simpa [Value.keys_text] using hk)
      rw [from_value.eq_def]
      dsimp only
      rw [hps]
      exact ⟨_, rfl⟩
  · intro xs hN hk
    cases xs with
    | nil => exact ⟨[], by rw [from_value_list.eq_def]⟩
    | cons x rest =>
      have hx1 := ysize_pos x
      have hrest : ylist rest < N := by simp [ylist] at hN; omega
      simp only [keys_text_list, Bool.and_eq_true] at hk
      obtain ⟨dx, hdx⟩ := YValue.into_value_total x
      have hdk : dx.keys_text = true := YValue.into_value_keys_text x dx hdx hk.1
      have hvs : vsize dx < ysize x := YValue.into_value_vsize x dx hdx
      have hxN : ysize x ≤ N - 1 := by simp [ylist] at hN; omega
      obtain ⟨y, hy⟩ := (ih (vsize dx) (by omega)).1 dx le_rfl hdk
      obtain ⟨ys, hys⟩ := (ih (ylist rest) hrest).2.1 rest le_rfl hk.2
      rw [from_value_list.eq_def]
      dsimp only
      rw [from_elem_eq, hdx, Option.some_bind', hy, hys]
      exact ⟨_, rfl⟩
  · intro m hN hk
    cases m with
    | nil => exact ⟨[], by rw [from_value_pairs.eq_def]⟩
    | cons p rest =>
      obtain ⟨k, v⟩ := p
      have hv1 := ysize_pos v
      have hrest : ypairs rest < N := by simp [ypairs] at hN; omega
      simp only [keys_text_pairs, Bool.and_eq_true] at hk
      obtain ⟨⟨hkey, hvk⟩, hrk⟩ := hk
      cases k with
      | String key =>
        obtain ⟨dv, hdv⟩ := YValue.into_value_total v
        have hdk : dv.keys_text = true := YValue.into_value_keys_text v dv hdv hvk
        have hvs : vsize dv < ysize v := YValue.into_value_vsize v dv hdv
        have hvN : ysize v ≤ N - 1 := by simp [ypairs] at hN; omega
        obtain ⟨y, hy⟩ := (ih (vsize dv) (by omega)).1 dv le_rfl hdk
        obtain ⟨ps, hps⟩ := (ih (ypairs rest) hrest).2.2 rest le_rfl hrk
        rw [from_value_pairs.eq_def]
        dsimp only
        rw [from_elem_eq, hdv, Option.some_bind', hy, hps]
        exact ⟨_, rfl⟩
      | Null => simp at hkey
      | Bool b => simp at hkey
      | Number n => simp at hkey
      | Sequence xs => simp at hkey
      | Mapping mm => simp at hkey
      | Tagged t w => simp at hkey

/-- A successful sequence-loop run started at index `i` with prefix `yseq`
and accumulator `acc` implies: the accumulator was empty, and the result
extends the prefix with exactly one output per input element, in order, the
`j`-th output being the conversion of the `j`-th remaining element. -/
theorem des_seq_ok_aux {E : Type} (merge : MergeFn E) (loc : ValuePointerRef) :
    ∀ (xs : List YValue) (i : Nat) (yseq : List YValue) (acc : Option E)
      (w : YValue),
      des_seq merge loc xs i yseq acc = some (.ok w) →
      acc = none ∧ ∃ zs : List YValue,
        w = .Sequence (yseq ++ zs) ∧ zs.length = xs.length ∧
        ∀ (j : Nat) (hj : j < xs.length) (hj' : j < zs.length),
          des_elem merge (xs.get ⟨j, hj⟩) (loc.push_index (i + j)) =
            some (.ok (zs.get ⟨j, hj'⟩)) := by
  intro xs
  induction xs with
  | nil =>
    intro i yseq acc w h
    rw [des_seq.eq_def] at h
    cases acc with
    | none =>
      simp only [Option.some_inj] at h
      refine ⟨rfl, [], ?_, rfl, ?_⟩
      · simpa using h.symm
      · intro j hj; exact absurd hj (by simp)
    | some e => simp at h
  | cons x rest ih =>
    intro i yseq acc w h
    rw [des_seq.eq_def] at h
    dsimp only at h
    cases hr : des_elem merge x (loc.push_index i) with
    | none => rw [hr] at h; simp at h
    | some r =>
      rw [hr] at h
      cases r with
      | ok v =>
        obtain ⟨hacc, zs, hw, hlen, hpt⟩ := ih (i + 1) (yseq ++ [v]) acc w h
        refine ⟨hacc, v :: zs, ?_, by simp [hlen], ?_⟩
        · simpa [List.append_assoc] using hw
        · intro j hj hj'
          cases j with
          | zero => simpa using hr
          | succ j' =>
            have hidx : i + 1 + j' = i + (j' + 1) := by omega
            have := hpt j' (by simpa using hj) (by simpa using hj')
            rw [hidx] at this
            simpa using this
      | error e =>
        dsimp only at h
        cases hm : merge acc e (loc.push_index i) with
        | Continue e2 =>
          rw [hm] at h
          obtain ⟨hacc, _⟩ := ih (i + 1) yseq (some e2) w h
          exact absurd hacc (by simp)
        | Break e2 => rw [hm] at h; simp at h

/-- Did the sequence loop visit every element, with neither a panic nor a
`Break` from `merge`?  (Mirrors the control flow of `seq_loop`.) -/
def seq_runs_to_end {E : Type} (conv : Nat → YValue → Option (Except E YValue))
    (merge : MergeFn E) (location : ValuePointerRef) :
    List YValue → Nat → Option E → Bool
  | [], _, _ => true
  | x :: rest, i, err =>
    match conv i x with
    | none => false
    | some (.ok _) => seq_runs_to_end conv merge location rest (i + 1) err
    | some (.error e) =>
      match merge err e (location.push_index i) with
      | .Continue e2 => seq_runs_to_end conv merge location rest (i + 1) (some e2)
      | .Break _ => false

/-- The accumulated error after the sequence loop visits every element. -/
def seq_final_error {E : Type} (conv : Nat → YValue → Option (Except E YValue))
    (merge : MergeFn E) (location : ValuePointerRef) :
    List YValue → Nat → Option E → Option E
  | [], _, err => err
  | x :: rest, i, err =>
    match conv i x with
    | none => err
    | some (.ok _) => seq_final_error conv merge location rest (i + 1) err
    | some (.error e) =>
      match merge err e (location.push_index i) with
      | .Continue e2 => seq_final_error conv merge location rest (i + 1) (some e2)
      | .Break e2 => some e2

/-- The successfully converted elements the sequence loop appends, in input
order. -/
def seq_oks {E : Type} (conv : Nat → YValue → Option (Except E YValue)) :
    List YValue → Nat → List YValue
  | [], _ => []
  | x :: rest, i =>
    match conv i x with
    | some (.ok v) => v :: seq_oks conv rest (i + 1)
    | _ => seq_oks conv rest (i + 1)

/-- Did the map loop visit every entry, with text keys throughout, no panic
and no `Break` from `merge`? -/
def map_runs_to_end {E : Type} (conv : Str → YValue → Option (Except E YValue))
    (merge : MergeFn E) (location : ValuePointerRef) :
    List (YValue × YValue) → Option E → Bool
  | [], _ => true
  | (k, v) :: rest, err =>
    match k with
    | .String key =>
      (match conv key v with
      | none => false
      | some (.ok _) => map_runs_to_end conv merge location rest err
      | some (.error e) =>
        match merge err e (location.push_key key) with
        | .Continue e2 => map_runs_to_end conv merge location rest (some e2)
        | .Break _ => false)
    | _ => false

/-- The accumulated error after the map loop visits every entry. -/
def map_final_error {E : Type} (conv : Str → YValue → Option (Except E YValue))
    (merge : MergeFn E) (location : ValuePointerRef) :
    List (YValue × YValue) → Option E → Option E
  | [], err => err
  | (k, v) :: rest, err =>
    match k with
    | .String key =>
      (match conv key v with
      | none => err
      | some (.ok _) => map_final_error conv merge location rest err
      | some (.error e) =>
        match merge err e (location.push_key key) with
        | .Continue e2 => map_final_error conv merge location rest (some e2)
        | .Break e2 => some e2)
    | _ => err

/-- The successfully converted entries the map loop inserts, in input
order. -/
def map_oks {E : Type} (conv : Str → YValue → Option (Except E YValue)) :
    List (YValue × YValue) → List (YValue × YValue)
  | [] => []
  | (k, v) :: rest =>
    match k with
    | .String key =>
      (match conv key v with
      | some (.ok w) => (YValue.String key, w) :: map_oks conv rest
      | _ => map_oks conv rest)
    | _ => map_oks conv rest

/-- A sequence-loop run that reaches the end of the input returns the final
accumulated error if one is present, else the fully built sequence. -/
theorem seq_loop_end {E : Type}
    (conv : Nat → YValue → Option (Except E YValue)) (merge : MergeFn E)
    (location : ValuePointerRef) :
    ∀ (xs : List YValue) (i : Nat) (yseq : List YValue) (err : Option E),
      seq_runs_to_end conv merge location xs i err = true →
      seq_loop conv merge location xs i yseq err =
        some (match seq_final_error conv merge location xs i err with
              | some e => .error e
              | none => .ok (.Sequence (yseq ++ seq_oks conv xs i))) := by
  intro xs
  induction xs with
  | nil =>
    intro i yseq err _
    simp [seq_loop, seq_final_error, seq_oks]
  | cons x rest ih =>
    intro i yseq err hrun
    rw [seq_runs_to_end] at hrun
    rw [seq_loop, seq_final_error, seq_oks]
    cases hc : conv i x with
    | none => rw [hc] at hrun; simp at hrun
    | some r =>
      rw [hc] at hrun
      cases r with
      | ok v =>
        try dsimp only at hrun
        try dsimp only
        have := ih (i + 1) (yseq ++ [v]) err hrun
        rw [this]
        cases seq_final_error conv merge location rest (i + 1) err <;>
          simp [List.append_assoc]
      | error e =>
        try dsimp only at hrun
        try dsimp only
        cases hm : merge err e (location.push_index i) with
        | Continue e2 =>
          try rw [hm] at hrun
          try dsimp only at hrun
          try dsimp only
          exact ih (i + 1) yseq (some e2) hrun
        | Break e2 =>
          try rw [hm] at hrun
          try simp at hrun

/-- A map-loop run that reaches the end of the input returns the final
accumulated error if one is present, else the fully built mapping. -/
theorem map_loop_end {E : Type}
    (conv : Str → YValue → Option (Except E YValue)) (merge : MergeFn E)
    (location : ValuePointerRef) :
    ∀ (m : List (YValue × YValue)) (jmap : List (YValue × YValue))
      (err : Option E),
      map_runs_to_end conv merge location m err = true →
      map_loop conv merge location m jmap err =
        some (match map_final_error conv merge location m err with
              | some e => .error e
              | none => .ok (.Mapping (jmap ++ map_oks conv m))) := by
  intro m
  induction m with
  | nil =>
    intro jmap err _
    simp [map_loop, map_final_error, map_oks]
  | cons p rest ih =>
    intro jmap err hrun
    obtain ⟨k, v⟩ := p
    cases k with
    | String key =>
      rw [map_runs_to_end] at hrun
      rw [map_loop, map_final_error, map_oks]
      try dsimp only at hrun
      try dsimp only
      cases hc : conv key v with
      | none => rw [hc] at hrun; simp at hrun
      | some r =>
        rw [hc] at hrun
        cases r with
        | ok w =>
          try dsimp only at hrun
          try dsimp only
          have := ih (jmap ++ [(YValue.String key, w)]) err hrun
          rw [this]
          cases map_final_error conv merge location rest err <;>
            simp [List.append_assoc]
        | error e =>
          try dsimp only at hrun
          try dsimp only
          cases hm : merge err e (location.push_key key) with
          | Continue e2 =>
            try rw [hm] at hrun
            try dsimp only at hrun
            try dsimp only
            exact ih jmap (some e2) hrun
          | Break e2 =>
            try rw [hm] at hrun
            try simp at hrun
    | Null => simp [map_runs_to_end] at hrun
    | Bool b => simp [map_runs_to_end] at hrun
    | Number n => simp [map_runs_to_end] at hrun
    | Sequence xs => simp [map_runs_to_end] at hrun
    | Mapping mm => simp [map_runs_to_end] at hrun
    | Tagged t w => simp [map_runs_to_end] at hrun

/-- Size-bounded round trip: a native value within the round-trip scope
(`rt_ok`) exposes a canonical node whose reverse conversion restores the
original value exactly. -/
theorem round_trip_aux : ∀ N : Nat,
    (∀ v : YValue, ysize v ≤ N → v.rt_ok = true →
      ∃ d : Value, v.into_value = some d ∧ from_value d = some v) ∧
    (∀ xs : List YValue, ylist xs ≤ N → rt_ok_list xs = true →
      from_value_list xs = some xs) ∧
    (∀ m : List (YValue × YValue), ypairs m ≤ N → rt_ok_pairs m = true →
      from_value_pairs m = some m) := by
  intro N
  induction N using Nat.strong_induction_on with
  | _ N ih =>
  refine ⟨?_, ?_, ?_⟩
  · intro v hN hrt
    cases v with
    | Null => exact ⟨.Null, rfl, by rw [from_value.eq_def]; try rfl⟩
    | Bool b => exact ⟨.Boolean b, rfl, by rw [from_value.eq_def]; try rfl⟩
    | Number n =>
      cases n with
      | posInt k =>
        exact ⟨.Integer k, rfl, by rw [from_value.eq_def]; try rfl⟩
      | negInt i =>
        have hneg : i < 0 := by
          simp [YValue.rt_ok, Number.wf] at hrt; exact hrt.2
        refine ⟨.NegativeInteger i, rfl, ?_⟩
        rw [from_value.eq_def]
        simp [Number.from_i64, hneg]
      | float f =>
        exact ⟨.Float f, rfl, by rw [from_value.eq_def]; try rfl⟩
    | String s => exact ⟨.String s, rfl, by rw [from_value.eq_def]; try rfl⟩
    | Sequence xs =>
      have hlt : ylist xs < N := by simp [ysize] at hN; omega
      have hl := (ih (ylist xs) hlt).2.1 xs le_rfl
        (by simpa [YValue.rt_ok] using hrt)
      refine ⟨.Sequence xs, rfl, ?_⟩
      rw [from_value.eq_def]
      dsimp only
      rw [hl]
      rfl
    | Mapping m =>
      have hlt : ypairs m < N := by simp [ysize] at hN; omega
      have hp := (ih (ypairs m) hlt).2.2 m le_rfl
        (by simpa [YValue.rt_ok] using hrt)
      refine ⟨.Map m, rfl, ?_⟩
      rw [from_value.eq_def]
      dsimp only
      rw [hp]
      rfl
    | Tagged t w => simp [YValue.rt_ok] at hrt
  · intro xs hN hrt
    cases xs with
    | nil => rw [from_value_list.eq_def]
    | cons x rest =>
      have hx1 := ysize_pos x
      have hxN : ysize x ≤ N - 1 := by simp [ylist] at hN; omega
      have hrest : ylist rest < N := by simp [ylist] at hN; omega
      simp only [rt_ok_list, Bool.and_eq_true] at hrt
      obtain ⟨dx, hdi, hdf⟩ := (ih (ysize x) (by omega)).1 x le_rfl hrt.1
      have hl := (ih (ylist rest) hrest).2.1 rest le_rfl hrt.2
      rw [from_value_list.eq_def]
      dsimp only
      rw [from_elem_eq, hdi, Option.some_bind', hdf, hl]
      rfl
  · intro m hN hrt
    cases m with
    | nil => rw [from_value_pairs.eq_def]
    | cons p rest =>
      obtain ⟨k, v⟩ := p
      have hv1 := ysize_pos v
      have hvN : ysize v ≤ N - 1 := by simp [ypairs] at hN; omega
      have hrest : ypairs rest < N := by simp [ypairs] at hN; omega
      simp only [rt_ok_pairs, Bool.and_eq_true] at hrt
      obtain ⟨⟨hkey, hvrt⟩, hrrt⟩ := hrt
      cases k with
      | String key =>
        obtain ⟨dv, hdi, hdf⟩ := (ih (ysize v) (by omega)).1 v le_rfl hvrt
        have hp := (ih (ypairs rest) hrest).2.2 rest le_rfl hrrt
        rw [from_value_pairs.eq_def]
        dsimp only
        rw [from_elem_eq, hdi, Option.some_bind', hdf, hp]
        rfl
      | Null => simp at hkey
      | Bool b => simp at hkey
      | Number n => simp at hkey
      | Sequence xs => simp at hkey
      | Mapping mm => simp at hkey
      | Tagged t w => simp at hkey

/-- Iterated tagged wrappers around a native value. -/
def YValue.wrap_tags (ts : List Str) (v : YValue) : YValue :=
  ts.foldr .Tagged v

/-- A concrete merge policy for witnesses over `E = Nat`: break on the first
failure when nothing is accumulated yet, afterwards add error codes and
continue. -/
def add_merge : MergeFn Nat := fun acc e _ =>
  match acc with
  | none => .Break e
  | some a => .Continue (a + e)

/-- A concrete collect-all merge policy for witnesses over `E = Nat`. -/
def collect_merge : MergeFn Nat := fun acc e _ =>
  .Continue (match acc with
             | none => e
             | some a => a + e)

/-- A concrete element conversion for witnesses: fails (with code 3) exactly
at index 0. -/
def fail_at_zero : Nat → YValue → Option (Except Nat YValue) := fun i _ =>
  if i = 0 then some (.error 3) else some (.ok .Null)

/-- A concrete always-succeeding entry conversion for witnesses. -/
def ok_conv : Str → YValue → Option (Except Nat YValue) := fun _ _ =>
  some (.ok .Null)

/-- C1: `into_value` classifies every native number with fixed precedence —
`Integer` if representable as `u64`, else `NegativeInteger` if representable
as `i64`, else `Float` if representable as `f64` — and never yields `Null`;
`0` and `u64::MAX` classify as `Integer`, `-1` as `NegativeInteger`, `0.5`
(bit pattern `0x3FE0000000000000`) as `Float`; `kind` agrees with the same
precedence. -/
theorem claim_C1 :
    (∀ (n : Number) (u : Nat), n.as_u64 = some u →
      n.number_into_value = some (.Integer u)) ∧
    (∀ (n : Number) (i : Int), n.as_u64 = none → n.as_i64 = some i →
      n.number_into_value = some (.NegativeInteger i)) ∧
    (∀ (n : Number) (f : F64), n.as_u64 = none → n.as_i64 = none →
      n.as_f64 = some f → n.number_into_value = some (.Float f)) ∧
    (∀ n : Number, n.number_into_value ≠ some .Null) ∧
    (YValue.Number (Number.from_u64 0)).into_value = some (.Integer 0) ∧
    (YValue.Number (Number.from_u64 u64_max)).into_value =
      some (.Integer u64_max) ∧
    (YValue.Number (Number.from_i64 (-1))).into_value =
      some (.NegativeInteger (-1)) ∧
    (YValue.Number (Number.from_f64 (.lit 0x3FE0000000000000))).into_value =
      some (.Float (.lit 0x3FE0000000000000)) ∧
    (∀ n : Number,
      (YValue.Number n).kind = ((YValue.Number n).into_value).map Value.tag) := by
  refine ⟨?_, ?_, ?_, ?_, rfl, rfl, rfl, rfl, ?_⟩
  · intro n u h; simp [Number.number_into_value, h]
  · intro n i h1 h2; simp [Number.number_into_value, h1, h2]
  · intro n f h1 h2 h3; simp [Number.number_into_value, h1, h2, h3]
  · intro n
    cases n with
    | posInt m => simp [Number.number_into_value, Number.as_u64]
    | negInt i =>
      simp [Number.number_into_value, Number.as_u64, Number.as_i64]
    | float f =>
      simp [Number.number_into_value, Number.as_u64, Number.as_i64,
        Number.as_f64]
  · intro n; exact YValue.kind_agree (.Number n)

/-- Exercises `claim_C1` on a `u64` number, an `i64`-only number and a
float. -/
theorem claim_C1_witness :
    (Number.posInt 5).number_into_value = some (.Integer 5) ∧
    (Number.negInt (-3)).number_into_value = some (.NegativeInteger (-3)) ∧
    (Number.float (.lit 7)).number_into_value = some (.Float (.lit 7)) :=
  ⟨claim_C1.1 _ 5 rfl,
   claim_C1.2.1 _ (-3) rfl rfl,
   claim_C1.2.2.1 _ (.lit 7) rfl rfl rfl⟩

/-- C4: round-trip identity — a native value in the lossless scope (numbers
satisfying the crate invariant, strings, nested sequences and text-keyed
maps) converts one level at a time to a canonical node, and the reverse
conversion rebuilds the original native value exactly. -/
theorem claim_C4 (v : YValue) (h : v.rt_ok = true) :
    ∃ d : Value, v.into_value = some d ∧ from_value d = some v :=
  (round_trip_aux (ysize v)).1 v le_rfl h

/-- Exercises `claim_C4` on a nested mapping holding a number, a string and
a sequence. -/
theorem claim_C4_witness :
    ∃ d : Value,
      (YValue.Mapping
        [(.String "a", .Sequence [.Number (.posInt 1), .String "x"])]).into_value =
          some d ∧
      from_value d =
        some (YValue.Mapping
          [(.String "a", .Sequence [.Number (.posInt 1), .String "x"])]) :=
  claim_C4 _ rfl

/-- C5: tagged wrappers are transparent — `into_value` and `kind` of a
tagged node delegate to the wrapped value, at any nesting depth of
wrappers. -/
theorem claim_C5 :
    (∀ (t : Str) (v : YValue),
      (YValue.Tagged t v).into_value = v.into_value ∧
      (YValue.Tagged t v).kind = v.kind) ∧
    (∀ (ts : List Str) (v : YValue),
      (YValue.wrap_tags ts v).into_value = v.into_value ∧
      (YValue.wrap_tags ts v).kind = v.kind) := by
  refine ⟨fun t v => ⟨rfl, rfl⟩, fun ts v => ?_⟩
  induction ts with
  | nil => exact ⟨rfl, rfl⟩
  | cons t rest ih => exact ih

/-- C6: the reverse direction converts a canonical `Float` exactly — back to
the same stored double, never to `Null` — in both `From<Value<V>>` and the
`deserialize_from_value` scalar arm. -/
theorem claim_C6 {E : Type} (merge : MergeFn E) (f : F64)
    (loc : ValuePointerRef) :
    from_value (.Float f) = some (.Number (.float f)) ∧
    from_value (.Float f) ≠ some .Null ∧
    deserialize_from_value merge (.Float f) loc =
      some (.ok (.Number (.float f))) := by
  refine ⟨?_, ?_, ?_⟩
  · rw [from_value.eq_def]; rfl
  · rw [from_value.eq_def]; simp [Number.from_f64]
  · rw [deserialize_from_value.eq_def]; rfl

/-- C9: `kind` agrees with the variant tag of `into_value` on every native
value satisfying the adapter invariants. -/
theorem claim_C9 (v : YValue) (h : v.wf = true) :
    v.kind = v.into_value.map Value.tag :=
  YValue.kind_agree v

/-- Exercises `claim_C9` on a well-formed number node. -/
theorem claim_C9_witness :
    (YValue.Number (Number.posInt 3)).kind =
      ((YValue.Number (Number.posInt 3)).into_value).map Value.tag :=
  claim_C9 (.Number (.posInt 3)) (by simp [YValue.wf, Number.wf, u64_max])

/-- C10: with the native value itself as target, `deserialize_from_value`
computes exactly the infallible `From<Value<V>>` conversion with every
returned value wrapped in `Ok`, for every canonical input, location and
merge policy; on text-keyed input it therefore always returns `Ok`, never an
error. -/
theorem claim_C10 (E : Type) (merge : MergeFn E) (d : Value)
    (loc : ValuePointerRef) :
    deserialize_from_value merge d loc = (from_value d).map Except.ok ∧
    (d.keys_text = true → ∃ y : YValue,
      from_value d = some y ∧
      deserialize_from_value merge d loc = some (.ok y)) := by
  have heq := (des_eq_from_aux (vsize d)).1 E merge d loc le_rfl
  refine ⟨heq, fun hk => ?_⟩
  obtain ⟨y, hy⟩ := (from_value_total_aux (vsize d)).1 d le_rfl hk
  exact ⟨y, hy, by rw [heq, hy]; rfl⟩

/-- C2: one traversal step at a failing element — the loop calls `merge`
with the accumulated error, the element's error and the extended location;
on `Break e` the whole call returns `Err e` immediately and no partial
output is returned; on `Continue e` the accumulator becomes `some e`, the
element's output is discarded (the built prefix is unchanged) and traversal
proceeds with the next index; the map loop behaves identically with
`push_key`. -/
theorem claim_C2 {E : Type} (conv : Nat → YValue → Option (Except E YValue))
    (convk : Str → YValue → Option (Except E YValue)) (merge : MergeFn E)
    (location : ValuePointerRef) (x : YValue) (rest : List YValue) (i : Nat)
    (yseq : List YValue) (acc : Option E) (ex : E) (key : Str) (v : YValue)
    (prest jmap : List (YValue × YValue)) (exk : E) (e : E) :
    (conv i x = some (.error ex) →
      (merge acc ex (location.push_index i) = .Break e →
        seq_loop conv merge location (x :: rest) i yseq acc =
          some (.error e)) ∧
      (merge acc ex (location.push_index i) = .Continue e →
        seq_loop conv merge location (x :: rest) i yseq acc =
          seq_loop conv merge location rest (i + 1) yseq (some e))) ∧
    (convk key v = some (.error exk) →
      (merge acc exk (location.push_key key) = .Break e →
        map_loop convk merge location ((.String key, v) :: prest) jmap acc =
          some (.error e)) ∧
      (merge acc exk (location.push_key key) = .Continue e →
        map_loop convk merge location ((.String key, v) :: prest) jmap acc =
          map_loop convk merge location prest jmap (some e))) := by
  constructor
  · intro hc
    constructor
    · intro hb
      rw [seq_loop]; rw [hc]; try dsimp only
      rw [hb]; try rfl
    · intro hcont
      rw [seq_loop]; rw [hc]; try dsimp only
      rw [hcont]; try rfl
  · intro hc
    constructor
    · intro hb
      rw [map_loop]; try dsimp only
      rw [hc]; try dsimp only
      rw [hb]; try rfl
    · intro hcont
      rw [map_loop]; try dsimp only
      rw [hc]; try dsimp only
      rw [hcont]; try rfl

/-- Exercises `claim_C2`: a break step on a sequence element and a continue
step on a map entry. -/
theorem claim_C2_witness :
    seq_loop (fun _ _ => some (.error 7)) add_merge .origin [YValue.Null] 0
      [] none = some (.error 7) ∧
    map_loop (fun _ _ => some (.error 9)) add_merge .origin
      [(.String "k", .Null)] [] (some 1) =
      map_loop (fun _ _ => some (.error 9)) add_merge .origin [] [] (some 10) :=
  ⟨((claim_C2 (fun _ _ => some (.error 7)) (fun _ _ => some (.error 9))
      add_merge .origin .Null [] 0 [] none 7 "k" .Null [] [] 9 7).1
      rfl).1 rfl,
   ((claim_C2 (fun _ _ => some (.error 7)) (fun _ _ => some (.error 9))
      add_merge .origin .Null [] 0 [] (some 1) 7 "k" .Null [] [] 9 10).2
      rfl).2 rfl⟩

/-- C3: a traversal that reaches the end of all elements without a `Break`
fails with the accumulated error exactly when one is present, and otherwise
succeeds with the fully built container holding every converted element — for
sequences and maps alike. -/
theorem claim_C3 {E : Type} (conv : Nat → YValue → Option (Except E YValue))
    (convk : Str → YValue → Option (Except E YValue)) (merge : MergeFn E)
    (location : ValuePointerRef) (xs : List YValue) (i : Nat)
    (yseq : List YValue) (err : Option E) (m jmap : List (YValue × YValue)) :
    (seq_runs_to_end conv merge location xs i err = true →
      seq_loop conv merge location xs i yseq err =
        some (match seq_final_error conv merge location xs i err with
              | some e => .error e
              | none => .ok (.Sequence (yseq ++ seq_oks conv xs i)))) ∧
    (map_runs_to_end convk merge location m err = true →
      map_loop convk merge location m jmap err =
        some (match map_final_error convk merge location m err with
              | some e => .error e
              | none => .ok (.Mapping (jmap ++ map_oks convk m)))) :=
  ⟨fun h => seq_loop_end conv merge location xs i yseq err h,
   fun h => map_loop_end convk merge location m jmap err h⟩

/-- Exercises `claim_C3`: a collect-all run over two elements whose first
fails yields the accumulated error; an all-ok map run yields the full
mapping. -/
theorem claim_C3_witness :
    seq_loop fail_at_zero collect_merge .origin [.Null, .Null] 0 [] none =
      some (.error 3) ∧
    map_loop ok_conv collect_merge .origin [(.String "a", .Bool true)] []
      none = some (.ok (.Mapping [(.String "a", .Null)])) :=
  ⟨((claim_C3 fail_at_zero ok_conv collect_merge .origin [.Null, .Null] 0 []
      none [(.String "a", .Bool true)] []).1 rfl).trans rfl,
   ((claim_C3 fail_at_zero ok_conv collect_merge .origin [.Null, .Null] 0 []
      none [(.String "a", .Bool true)] []).2 rfl).trans rfl⟩

/-- C7: the conversion operations never panic on any input satisfying the
adapter contract — `into_value` and `kind` are total on all native values,
`deserialize_from_value` and `from_value` return on every text-keyed
canonical value — and the only abort is the adapter-internal invariant
violation: a map key that is not text (the unclassifiable-number branch is
unreachable). -/
theorem claim_C7 :
    (∀ v : YValue, (v.into_value).isSome = true) ∧
    (∀ v : YValue, (v.kind).isSome = true) ∧
    (∀ (E : Type) (merge : MergeFn E) (d : Value) (loc : ValuePointerRef),
      d.keys_text = true →
        (deserialize_from_value merge d loc).isSome = true ∧
        (from_value d).isSome = true) ∧
    @deserialize_from_value Unit (fun _ e _ => .Break e)
      (.Map [(.Null, .Null)]) .origin = none ∧
    from_value (.Map [(.Null, .Null)]) = none := by
  refine ⟨?_, ?_, ?_, ?_, ?_⟩
  · intro v; obtain ⟨d, hd⟩ := YValue.into_value_total v; simp [hd]
  · intro v; obtain ⟨k, hk⟩ := YValue.kind_total v; simp [hk]
  · intro E merge d loc hk
    obtain ⟨y, hy⟩ := (from_value_total_aux (vsize d)).1 d le_rfl hk
    have heq := (des_eq_from_aux (vsize d)).1 E merge d loc le_rfl
    constructor
    · rw [heq, hy]; rfl
    · rw [hy]; rfl
  · rw [deserialize_from_value.eq_def]
    dsimp only
    rw [des_map.eq_def]
  · rw [from_value.eq_def]
    dsimp only
    rw [from_value_pairs.eq_def]
    rfl

/-- Exercises `claim_C7` on a text-keyed input. -/
theorem claim_C7_witness :
    (deserialize_from_value add_merge (Value.String "hi") .origin).isSome =
      true ∧
    (from_value (Value.String "hi")).isSome = true :=
  claim_C7.2.2.1 Nat add_merge (Value.String "hi") .origin rfl

/-- C8: order preservation — whenever converting a canonical sequence
succeeds, the output has the same length as the input and its element at
every index `j` is the conversion of the input element at index `j`. -/
theorem claim_C8 {E : Type} (merge : MergeFn E) (xs : List YValue)
    (loc : ValuePointerRef) (ys : List YValue)
    (h : deserialize_from_value merge (.Sequence xs) loc =
      some (.ok (.Sequence ys))) :
    ys.length = xs.length ∧
    ∀ (j : Nat) (hj : j < xs.length) (hj' : j < ys.length),
      des_elem merge (xs.get ⟨j, hj⟩) (loc.push_index j) =
        some (.ok (ys.get ⟨j, hj'⟩)) := by
  rw [deserialize_from_value.eq_def] at h
  dsimp only at h
  obtain ⟨-, zs, hw, hlen, hpt⟩ := des_seq_ok_aux merge loc xs 0 [] none _ h
  have hzs : ys = zs := by simpa using hw
  subst hzs
  refine ⟨hlen, fun j hj hj' => ?_⟩
  have := hpt j hj hj'
  simpa using this

/-- Exercises `claim_C8` on a two-element sequence. -/
theorem claim_C8_witness :
    ([YValue.Bool true, YValue.Null] : List YValue).length =
      ([YValue.Bool true, YValue.Null] : List YValue).length ∧
    ∀ (j : Nat) (hj : j < ([YValue.Bool true, YValue.Null] : List YValue).length)
      (hj' : j < ([YValue.Bool true, YValue.Null] : List YValue).length),
      des_elem add_merge (([YValue.Bool true, YValue.Null] : List YValue).get
          ⟨j, hj⟩) (ValuePointerRef.origin.push_index j) =
        some (.ok (([YValue.Bool true, YValue.Null] : List YValue).get
          ⟨j, hj'⟩)) :=
  claim_C8 add_merge [.Bool true, .Null] .origin [.Bool true, .Null]
    (by
      rw [deserialize_from_value.eq_def]
      dsimp only
      rw [des_seq.eq_def]
      dsimp only
      rw [des_elem_eq]
      rw [show (YValue.Bool true).into_value = some (.Boolean true) from rfl]
      rw [Option.some_bind']
      rw [deserialize_from_value.eq_def]
      dsimp only
      rw [des_seq.eq_def]
      dsimp only
      rw [des_elem_eq]
      rw [show YValue.Null.into_value = some .Null from rfl]
      rw [Option.some_bind']
      rw [deserialize_from_value.eq_def]
      dsimp only
      rw [des_seq.eq_def]
      rfl)

/-- Exercises `claim_C10` on a scalar string input. -/
theorem claim_C10_witness :
    deserialize_from_value add_merge (Value.String "s") .origin =
      (from_value (Value.String "s")).map Except.ok ∧
    (∃ y : YValue,
      from_value (Value.String "s") = some y ∧
      deserialize_from_value add_merge (Value.String "s") .origin =
        some (.ok y)) :=
  ⟨(claim_C10 Nat add_merge (Value.String "s") .origin).1,
   (claim_C10 Nat add_merge (Value.String "s") .origin).2 rfl⟩

end Deserr
